import Mathlib

/-!
Verification of the in-memory tabular data engine of the LLD repository.

The file shallowly embeds the two database programs of src/LLD/db/db.go:

* namespace DB1: the filter-based table (EqualFilter, InMemoryTable,
  Database with RegisterTable/GetTable);
* namespace DB2: the schema-validated table (ColumnDataType, Schema,
  Table with Insert and QuerySimple).

Go maps (map[string]interface{}, map[int]..., and so on) are embedded as
association lists with map semantics: lookup returns the most recent
binding, insertion overwrites. Go interface{} values that actually occur
in the code (int, string) are embedded as the tagged type Value, and the
Go == on interface values is equality on that tagged type. Components the
spec describes but the repository does not contain under src (secondary
indexes, the predicate tree with five operators, id-based update/delete)
are modelled from the spec in namespace SpecModel; each such definition
says so in its doc comment.
-/

namespace DBM

/-- Dynamically typed column value: the Go interface{} values used by the
source are int and string. -/
inductive Value
  | int (n : Int)
  | str (s : String)
deriving DecidableEq

/-- A Go map embedded as an association list: lookup of the first binding. -/
def mlookup {α β : Type} [DecidableEq α] : List (α × β) → α → Option β
  | [], _ => none
  | (a, b) :: t, k => if a = k then some b else mlookup t k

/-- Deleting a key from an embedded Go map. -/
def merase {α β : Type} [DecidableEq α] : List (α × β) → α → List (α × β)
  | [], _ => []
  | p :: t, k => if p.1 = k then merase t k else p :: merase t k

/-- Setting a key in an embedded Go map (overwrite semantics). -/
def minsert {α β : Type} [DecidableEq α] (k : α) (v : β) (l : List (α × β)) : List (α × β) :=
  (k, v) :: merase l k

/-- A row: Go map[string]interface\x7b\x7d from column name to value. -/
abbrev Row := List (String × Value)

/-- Reading a column of a row (Go: val, ok := row[k]). -/
def Row.get (r : Row) (k : String) : Option Value :=
  mlookup r k

end DBM

namespace DB1

open DBM

/-- Column of the filter-based table (source type Column). -/
structure Column where
  name : String
  type : String

/-- Source type EqualFilter: the one FilterStrategy implementation. -/
structure EqualFilter where
  column : String
  value : Value

/-- Source EqualFilter.Match: present and equal, absent gives false. -/
def EqualFilter.Match (f : EqualFilter) (row : Row) : Bool :=
  match Row.get row f.column with
  | some v => decide (v = f.value)
  | none => false

/-- The FilterStrategy interface: anything with Match(row) bool. -/
abbrev FilterStrategy := Row → Bool

/-- Source type InMemoryTable. -/
structure InMemoryTable where
  columns : List Column
  rows : List Row

/-- The loop of InMemoryTable.validate over the declared columns. -/
def checkColumnsPresent (row : Row) : List Column → Option String
  | [] => none
  | c :: rest =>
    match Row.get row c.name with
    | some _ => checkColumnsPresent row rest
    | none => some ("missing column: " ++ c.name)

/-- Source InMemoryTable.validate: every declared column must be present. -/
def InMemoryTable.validate (t : InMemoryTable) (row : Row) : Option String :=
  checkColumnsPresent row t.columns

/-- Source InMemoryTable.Insert: validate, then append. -/
def InMemoryTable.Insert (t : InMemoryTable) (row : Row) : InMemoryTable × Option String :=
  match t.validate row with
  | some e => (t, some e)
  | none => ({ t with rows := t.rows ++ [row] }, none)

/-- The inner filter loop of Select/Update/Delete: all filters match. -/
def matchesAll (filters : List FilterStrategy) (row : Row) : Bool :=
  filters.all (fun f => f row)

/-- Source InMemoryTable.Select: keep the rows on which every filter matches. -/
def InMemoryTable.Select (t : InMemoryTable) (filters : List FilterStrategy) : List Row :=
  t.rows.filter (matchesAll filters)

/-- The update loop body: for k,v in updates, row[k] = v. -/
def applyUpdates (row : Row) (updates : Row) : Row :=
  updates.foldl (fun r kv => minsert kv.1 kv.2 r) row

/-- Source InMemoryTable.Update: merge updates into every matching row;
always returns nil error. -/
def InMemoryTable.Update (t : InMemoryTable) (filters : List FilterStrategy)
    (updates : Row) : InMemoryTable × Option String :=
  ({ t with rows := t.rows.map (fun row =>
      if matchesAll filters row then applyUpdates row updates else row) }, none)

/-- Source InMemoryTable.Delete: keep only non-matching rows; always
returns nil error. -/
def InMemoryTable.Delete (t : InMemoryTable) (filters : List FilterStrategy) :
    InMemoryTable × Option String :=
  ({ t with rows := t.rows.filter (fun row => !(matchesAll filters row)) }, none)

/-- Source NewInMemoryTable. -/
def NewInMemoryTable (columns : List Column) : InMemoryTable :=
  ⟨columns, []⟩

/-- Source type Database of the first program: name to table repository.
The only TableRepository implementation is InMemoryTable. -/
structure Database where
  tables : List (String × InMemoryTable)

/-- Source NewDatabase. -/
def NewDatabase : Database :=
  ⟨[]⟩

/-- Source Database.RegisterTable. -/
def Database.RegisterTable (db : Database) (name : String) (repo : InMemoryTable) : Database :=
  ⟨minsert name repo db.tables⟩

/-- Source Database.GetTable: a bare Go map read; a missing name yields
the zero value (nil interface), embedded as none. No error is produced. -/
def Database.GetTable (db : Database) (name : String) : Option InMemoryTable :=
  mlookup db.tables name

end DB1

namespace DB2

open DBM

/-- Source ColumnDataType implementations: IntDataType with inclusive
bounds and StringDataType with an allow-empty flag. -/
inductive ColumnDataType
  | intType (minValue maxValue : Int)
  | stringType (allowNull : Bool)

/-- Source IntDataType.Validate / StringDataType.Validate, merged on the
tagged value. A wrong dynamic type fails; an int outside the inclusive
bounds fails; an empty string fails unless AllowNull. -/
def ColumnDataType.Validate : ColumnDataType → Value → Option String
  | .intType lo hi, .int v =>
    if v < lo ∨ v > hi then some "int out of bounds" else none
  | .intType _ _, _ => some "expected int"
  | .stringType allowNull, .str v =>
    if !allowNull ∧ v = "" then some "empty string not allowed" else none
  | .stringType _, _ => some "expected string"

/-- Source type SchemaMember. -/
structure SchemaMember where
  name : String
  dataType : ColumnDataType
  required : Bool

/-- Source type Schema: Go map from column name to SchemaMember. -/
structure Schema where
  columns : List (String × SchemaMember)

/-- Source NewSchema: builds the column map keyed by member name,
later duplicates overwriting earlier ones. -/
def NewSchema (members : List SchemaMember) : Schema :=
  ⟨members.foldl (fun acc m => minsert m.name m acc) []⟩

/-- The loop of Schema.Validate over the declared columns: a missing
required column fails, a present column is checked by its validator,
undeclared row entries are never looked at. -/
def validateCols : List (String × SchemaMember) → Row → Option String
  | [], _ => none
  | (name, m) :: rest, row =>
    match Row.get row name with
    | none =>
      if m.required then some ("missing required field: " ++ name)
      else validateCols rest row
    | some v =>
      match m.dataType.Validate v with
      | some e => some ("validation failed for " ++ name ++ ": " ++ e)
      | none => validateCols rest row

/-- Source Schema.Validate. Go iterates the column map in unspecified
order; the embedding iterates the association list in order. Which error
is reported depends on the order, but whether an error is reported does
not (proved below). -/
def Schema.Validate (s : Schema) (row : Row) : Option String :=
  validateCols s.columns row

/-- Source type Table of the second program. The sync.RWMutex field has
no sequential content and is omitted; AutoID starts at the Go zero
value 0. -/
structure Table where
  name : String
  schema : Schema
  data : List (Int × Row)
  autoID : Int

/-- Source NewTable. -/
def NewTable (name : String) (schema : Schema) : Table :=
  ⟨name, schema, [], 0⟩

/-- The observable outcome of Table.Insert: the table afterwards, the
caller-supplied row map afterwards (Insert mutates it in place), the
returned id, and the returned error. -/
structure InsertResult where
  table : Table
  row : Row
  id : Int
  err : Option String

/-- Source Table.Insert: pre-increment AutoID, write it into the caller
row under "id", validate the complete row, store it on success. On
validation failure the id counter has still advanced, the caller row has
still been mutated, the store is untouched and the returned id is 0. -/
def Table.Insert (t : Table) (row : Row) : InsertResult :=
  let newID := t.autoID + 1
  let row2 := minsert "id" (Value.int newID) row
  match t.schema.Validate row2 with
  | some e => ⟨{ t with autoID := newID }, row2, 0, some e⟩
  | none =>
    ⟨{ t with autoID := newID, data := minsert newID row2 t.data }, row2, newID, none⟩

/-- The filter loop of QuerySimple: a filtered column must be present
and equal; an absent column fails the row. -/
def rowMatchesFilters (filters : List (String × Value)) (row : Row) : Bool :=
  filters.all (fun cv =>
    match Row.get row cv.1 with
    | some rv => decide (rv = cv.2)
    | none => false)

/-- Source Table.QuerySimple. Go ranges over the Data map in an order
the language leaves unspecified; the embedding takes that iteration
order as the explicit argument order, a list of keys enumerating Data.
Ids absent from Data contribute nothing. The source also skips nil row
values; embedded rows are total, so no stored row is nil. -/
def Table.QuerySimple (t : Table) (order : List Int)
    (filters : List (String × Value)) : List Row :=
  (order.filterMap (fun id => mlookup t.data id)).filter (rowMatchesFilters filters)

/-- order is a genuine iteration order of the row store: a permutation
of its keys. -/
def IsIterOrder (order : List Int) (data : List (Int × Row)) : Prop :=
  List.Perm order (data.map Prod.fst)

/-- Whether a result list is in strictly ascending row-id order, reading
the "id" column as an int (0 when absent or non-int). -/
def rowIdInt (r : Row) : Int :=
  match Row.get r "id" with
  | some (Value.int n) => n
  | _ => 0

/-- Strictly ascending by row id. -/
def ascendingByIdB : List Row → Bool
  | [] => true
  | [_] => true
  | r1 :: r2 :: rest => decide (rowIdInt r1 < rowIdInt r2) && ascendingByIdB (r2 :: rest)

/-- Modelled from the spec: the repository has no delete on the
schema-validated Table; spec section 4.2 gives delete(id), failing with
NotFoundError when the id is absent and removing the row otherwise. The
id counter is untouched. -/
def Table.deleteRow (t : Table) (id : Int) : Table × Option String :=
  match mlookup t.data id with
  | none => (t, some "not found")
  | some _ => ({ t with data := merase t.data id }, none)

/-- An operation of a Table trace: an Insert of a row, or a (spec
modelled) delete of an id. -/
inductive TblOp
  | ins (row : Row)
  | del (id : Int)

/-- One trace step: the table afterwards and, for a successful Insert,
the id it returned. -/
def Table.applyTblOp (t : Table) : TblOp → Table × Option Int
  | .ins r =>
    let res := t.Insert r
    (res.table, match res.err with | some _ => none | none => some res.id)
  | .del id => ((t.deleteRow id).1, none)

/-- Running a trace, collecting the ids returned by successful Inserts
in order. -/
def Table.runTblOps (t : Table) : List TblOp → Table × List Int
  | [] => (t, [])
  | op :: rest =>
    let step := t.applyTblOp op
    let tail := step.1.runTblOps rest
    (tail.1, match step.2 with | some i => i :: tail.2 | none => tail.2)

end DB2

namespace SpecModel

open DBM
open DB2

/-- Error taxonomy of spec section 7 (the variants the claims need). -/
inductive DBError
  | notFound
  | validation (msg : String)
deriving DecidableEq

/-- Modelled from the spec: the comparison operators of the Condition
leaf, spec section 4.4; the repository only contains equality filters. -/
inductive COp
  | eq
  | gt
  | lt
  | ge
  | le
deriving DecidableEq

/-- Modelled from the spec: the type-aware comparator of section 4.4.
Two ints support all five operators; two strings support only equality;
every other combination (strings under an order operator, mismatched
types) is false. -/
def compareValues : Value → COp → Value → Bool
  | .int a, .eq, .int b => decide (a = b)
  | .int a, .gt, .int b => decide (a > b)
  | .int a, .lt, .int b => decide (a < b)
  | .int a, .ge, .int b => decide (a ≥ b)
  | .int a, .le, .int b => decide (a ≤ b)
  | .str a, .eq, .str b => decide (a = b)
  | _, _, _ => false

/-- Modelled from the spec: the Condition leaf of the predicate tree,
absent from the repository. -/
structure Condition where
  column : String
  op : COp
  value : Value

/-- Modelled from the spec: a Condition on an absent column is false
unconditionally; otherwise the comparator decides. -/
def Condition.evaluate (c : Condition) (row : Row) : Bool :=
  match Row.get row c.column with
  | none => false
  | some v => compareValues v c.op c.value

/-- Modelled from the spec: the AND/OR combinator tags. -/
inductive LogicalOp
  | and
  | or

/-- Modelled from the spec: the composite predicate tree of section 4.4,
absent from the repository. -/
inductive Predicate
  | cond (c : Condition)
  | comp (op : LogicalOp) (children : List Predicate)

mutual

/-- Modelled from the spec: evaluate a predicate tree on one row. AND is
true iff every child is true, OR iff some child is true. -/
def Predicate.evaluate : Predicate → Row → Bool
  | Predicate.cond c, row => Condition.evaluate c row
  | Predicate.comp LogicalOp.and cs, row => evalAll cs row
  | Predicate.comp LogicalOp.or cs, row => evalAny cs row

/-- Conjunction over the children, in order. -/
def evalAll : List Predicate → Row → Bool
  | [], _ => true
  | p :: ps, row => Predicate.evaluate p row && evalAll ps row

/-- Disjunction over the children, in order. -/
def evalAny : List Predicate → Row → Bool
  | [], _ => false
  | p :: ps, row => Predicate.evaluate p row || evalAny ps row

end

/-- Modelled from the spec: an index content, section 4.3 — a mapping
from column value to the set of row identifiers holding it. -/
abbrev Buckets := List (Value × List Int)

/-- Modelled from the spec: add(value, id) — create the id-set for the
value if absent, insert the id (set semantics, no duplicate). -/
def bucketAdd (b : Buckets) (v : Value) (id : Int) : Buckets :=
  match mlookup b v with
  | none => minsert v [id] b
  | some s => if id ∈ s then b else minsert v (id :: s) b

/-- Modelled from the spec: remove(value, id) — delete the id from the
id-set; when the set becomes empty, delete the value entry entirely. -/
def bucketRemove (b : Buckets) (v : Value) (id : Int) : Buckets :=
  match mlookup b v with
  | none => b
  | some s =>
    let s2 := s.filter (fun x => decide (x ≠ id))
    if s2 = [] then merase b v else minsert v s2 b

/-- The id-set of a value, empty when the value has no entry. -/
def bucketIds (b : Buckets) (v : Value) : List Int :=
  (mlookup b v).getD []

/-- Modelled from the spec: a table with secondary indexes, section 3 —
schema, row store keyed by id, next-id counter, column-to-index map.
The repository contains no index code. -/
structure ITable where
  schema : Schema
  data : List (Int × Row)
  autoID : Int
  indexes : List (String × Buckets)

/-- Modelled from the spec: a fresh indexed table. -/
def NewITable (schema : Schema) : ITable :=
  ⟨schema, [], 0, []⟩

/-- Modelled from the spec: insert of section 4.2 — assign id by
pre-increment, write it into the row, validate the complete row, store
on success and add (value, id) to every index whose column the row
carries; on validation failure only the counter has moved. -/
def ITable.insertRow (t : ITable) (row : Row) : ITable × Except DBError Int :=
  let newID := t.autoID + 1
  let row2 := minsert "id" (Value.int newID) row
  match t.schema.Validate row2 with
  | some e => ({ t with autoID := newID }, Except.error (DBError.validation e))
  | none =>
    let idx2 := t.indexes.map (fun ci =>
      (ci.1, match Row.get row2 ci.1 with
             | some v => bucketAdd ci.2 v newID
             | none => ci.2))
    ({ t with autoID := newID, data := minsert newID row2 t.data, indexes := idx2 },
     Except.ok newID)

/-- Modelled from the spec: merging one column of a partial row into a
stored row, maintaining the index on that column — remove the old
(value, id) entry when the row had one, add the new. The argument row
must be the row stored under the id. -/
def ITable.setCol (t : ITable) (id : Int) (row : Row) (k : String) (v : Value) :
    ITable × Row :=
  let oldVal := Row.get row k
  let row2 := minsert k v row
  let idx2 := t.indexes.map (fun ci =>
    (ci.1, if ci.1 = k then
             bucketAdd (match oldVal with
                        | some ov => bucketRemove ci.2 ov id
                        | none => ci.2) v id
           else ci.2))
  ({ t with data := minsert id row2 t.data, indexes := idx2 }, row2)

/-- Merging every column of a partial row, left to right. -/
def ITable.applyCols : ITable → Int → Row → List (String × Value) → ITable × Row
  | t, _, row, [] => (t, row)
  | t, id, row, (k, v) :: rest =>
    let step := t.setCol id row k v
    ITable.applyCols step.1 id step.2 rest

/-- Modelled from the spec: update(id, partialRow) of section 4.2 —
NotFoundError when the id is absent; otherwise merge the partial row
into the stored row (maintaining indexes) and re-validate the merged
row; a validation failure is reported but the merge is not rolled
back. -/
def ITable.updateById (t : ITable) (id : Int) (patch : Row) : ITable × Except DBError Unit :=
  match mlookup t.data id with
  | none => (t, Except.error DBError.notFound)
  | some row =>
    let merged := t.applyCols id row patch
    match t.schema.Validate merged.2 with
    | some e => (merged.1, Except.error (DBError.validation e))
    | none => (merged.1, Except.ok ())

/-- Modelled from the spec: delete(id) of section 4.2 — NotFoundError
when the id is absent; otherwise remove the row and remove (value, id)
from every index whose column the row carried, pruning empty sets. -/
def ITable.deleteById (t : ITable) (id : Int) : ITable × Except DBError Unit :=
  match mlookup t.data id with
  | none => (t, Except.error DBError.notFound)
  | some row =>
    let idx2 := t.indexes.map (fun ci =>
      (ci.1, match Row.get row ci.1 with
             | some v => bucketRemove ci.2 v id
             | none => ci.2))
    ({ t with data := merase t.data id, indexes := idx2 }, Except.ok ())

/-- Modelled from the spec: building an index by one scan of the rows,
section 4.2 createIndex — add (row[column], id) for every row carrying
the column. -/
def buildBuckets (data : List (Int × Row)) (c : String) : Buckets :=
  data.foldl (fun b idrow =>
    match Row.get idrow.2 c with
    | some v => bucketAdd b v idrow.1
    | none => b) []

/-- Modelled from the spec: createIndex(column), overwriting any
existing index on the column. -/
def ITable.createIndex (t : ITable) (c : String) : ITable :=
  { t with indexes := minsert c (buildBuckets t.data c) t.indexes }

/-- An operation of an indexed-table trace. -/
inductive TOp
  | ins (row : Row)
  | upd (id : Int) (patch : Row)
  | del (id : Int)
  | cidx (c : String)

/-- One trace step on the indexed table. -/
def ITable.applyOp (t : ITable) : TOp → ITable
  | .ins r => (t.insertRow r).1
  | .upd id p => (t.updateById id p).1
  | .del id => (t.deleteById id).1
  | .cidx c => t.createIndex c

/-- Running a trace of operations. -/
def ITable.runOps (t : ITable) (ops : List TOp) : ITable :=
  ops.foldl ITable.applyOp t

/-- The index consistency invariant for one index: membership in the
bucket of a value holds exactly for the ids of stored rows carrying that
value in the column (so an id is in the bucket of its value and of no
other, and every index entry points at a real row), and no bucket is
empty. -/
def IndexInv (data : List (Int × Row)) (c : String) (b : Buckets) : Prop :=
  (∀ v id, id ∈ bucketIds b v ↔
    ∃ row, mlookup data id = some row ∧ Row.get row c = some v)
  ∧ (∀ v s, mlookup b v = some s → s ≠ [])

/-- The global invariant of the indexed table: stored ids never exceed
the counter, stored ids are distinct, and every registered index is
consistent. -/
def ITable.Inv (t : ITable) : Prop :=
  (∀ id row, mlookup t.data id = some row → id ≤ t.autoID)
  ∧ List.Nodup (t.data.map Prod.fst)
  ∧ (∀ c b, mlookup t.indexes c = some b → IndexInv t.data c b)

end SpecModel

namespace DB2

open DBM

/-- Acceptance of one declared column by a row, as the claims state it:
an absent column is fine unless required, a present one must pass its
validator. Decidable, for use in the statement of the validation
characterization. -/
def colOKB (row : Row) (p : String × SchemaMember) : Bool :=
  match Row.get row p.1 with
  | none => !p.2.required
  | some v => (p.2.dataType.Validate v).isNone

/-- A two-row table fixture: rows with ids 1 and 2 as two source Inserts
leave them in the Data map (most recent first), counter at 2. -/
def tblTwoRows : Table :=
  ⟨"t", NewSchema [], [(2, [("id", Value.int 2)]), (1, [("id", Value.int 1)])], 2⟩

/-- Fixture: the scenario schema of the spec with age bounded to [0, 150]. -/
def wsSchema : Schema :=
  NewSchema [⟨"age", ColumnDataType.intType 0 150, true⟩]

/-- Fixture: a fresh table over the scenario schema. -/
def wsTable : Table :=
  NewTable "users" wsSchema

/-- Fixture: a row violating the age bound. -/
def wRowBad : Row :=
  [("age", Value.int 200)]

/-- Fixture: a row satisfying the schema. -/
def wRowOK : Row :=
  [("age", Value.int 30)]

end DB2

section MapLemmas

open DBM

variable {α β : Type} [DecidableEq α]

theorem mlookup_merase (l : List (α × β)) (k k2 : α) :
    mlookup (merase l k) k2 = if k = k2 then none else mlookup l k2 := by
  induction l with
  | nil => simp [merase, mlookup]
  | cons p t ih =>
    by_cases h3 : k = k2
    · subst h3
      by_cases h1 : p.1 = k
      · simpa [merase, mlookup, h1] using ih
      · simpa [merase, mlookup, h1] using ih
    · by_cases h1 : p.1 = k
      · have h4 : ¬ p.1 = k2 := by rw [h1]; exact h3
        simp [merase, mlookup, h1, h3, h4, ih]
      · by_cases h2 : p.1 = k2
        · have h6 : ¬ k2 = k := fun he => h3 he.symm
          simp [merase, mlookup, h1, h2, h3, h6]
        · simp [merase, mlookup, h1, h2, h3, ih]

theorem mlookup_minsert (k k2 : α) (v : β) (l : List (α × β)) :
    mlookup (minsert k v l) k2 = if k = k2 then some v else mlookup l k2 := by
  by_cases h : k = k2 <;> simp [minsert, mlookup, mlookup_merase, h]

theorem mlookup_mapVal (g : α → β → β) (l : List (α × β)) (k : α) :
    mlookup (l.map (fun p => (p.1, g p.1 p.2))) k = (mlookup l k).map (g k) := by
  induction l with
  | nil => simp [mlookup]
  | cons p t ih =>
    by_cases h : p.1 = k
    · subst h; simp [mlookup, ih]
    · simp [mlookup, h, ih]

theorem mlookup_eq_none_of_not_mem_keys (l : List (α × β)) (k : α)
    (h : k ∉ l.map Prod.fst) : mlookup l k = none := by
  induction l with
  | nil => rfl
  | cons p t ih =>
    simp only [List.map_cons, List.mem_cons] at h
    push_neg at h
    have h1 : ¬ p.1 = k := fun he => h.1 he.symm
    simp [mlookup, h1]
    exact ih h.2

theorem not_mem_keys_merase (l : List (α × β)) (k : α) :
    k ∉ (merase l k).map Prod.fst := by
  induction l with
  | nil => simp [merase]
  | cons p t ih =>
    by_cases h : p.1 = k
    · simpa [merase, h] using ih
    · simp only [merase, h, if_false, List.map_cons, List.mem_cons]
      push_neg
      exact ⟨fun he => h he.symm, ih⟩

theorem sublist_merase (l : List (α × β)) (k : α) : (merase l k).Sublist l := by
  induction l with
  | nil => simp [merase]
  | cons p t ih =>
    by_cases h : p.1 = k
    · simp only [merase, h, if_true]
      exact ih.cons p
    · simp only [merase, h, if_false]
      exact ih.cons₂ p

theorem nodup_keys_merase (l : List (α × β)) (k : α)
    (h : (l.map Prod.fst).Nodup) : ((merase l k).map Prod.fst).Nodup :=
  List.Nodup.sublist (List.Sublist.map Prod.fst (sublist_merase l k)) h

theorem nodup_keys_minsert (k : α) (v : β) (l : List (α × β))
    (h : (l.map Prod.fst).Nodup) : ((minsert k v l).map Prod.fst).Nodup := by
  simp only [minsert, List.map_cons, List.nodup_cons]
  exact ⟨not_mem_keys_merase l k, nodup_keys_merase l k h⟩

end MapLemmas

section SchemaLemmas

open DBM DB2

theorem validateCols_none_iff (cols : List (String × SchemaMember)) (row : Row) :
    validateCols cols row = none ↔ ∀ p ∈ cols, colOKB row p = true := by
  induction cols with
  | nil => simp [validateCols]
  | cons p rest ih =>
    obtain ⟨name, m⟩ := p
    cases hget : Row.get row name with
    | none =>
      cases hreq : m.required with
      | true => simp [validateCols, hget, hreq, colOKB, ih]
      | false => simp [validateCols, hget, hreq, colOKB, ih]
    | some v =>
      cases hval : m.dataType.Validate v with
      | some e => simp [validateCols, hget, hval, colOKB, ih]
      | none => simp [validateCols, hget, hval, colOKB, ih]

theorem validateCols_congr (cols : List (String × SchemaMember)) (row row2 : Row)
    (h : ∀ p ∈ cols, Row.get row p.1 = Row.get row2 p.1) :
    validateCols cols row = validateCols cols row2 := by
  induction cols with
  | nil => rfl
  | cons p rest ih =>
    obtain ⟨name, m⟩ := p
    have h1 : Row.get row name = Row.get row2 name := h (name, m) (List.mem_cons_self _ _)
    have h2 : ∀ q ∈ rest, Row.get row q.1 = Row.get row2 q.1 :=
      fun q hq => h q (List.mem_cons_of_mem _ hq)
    simp only [validateCols, h1]
    cases Row.get row2 name with
    | none =>
      cases m.required <;> simp [ih h2]
    | some v =>
      cases m.dataType.Validate v <;> simp [ih h2]

end SchemaLemmas

section InsertLemmas

open DBM DB2

theorem insert_table_autoID (t : Table) (row : Row) :
    (t.Insert row).table.autoID = t.autoID + 1 := by
  cases hv : t.schema.Validate (minsert "id" (Value.int (t.autoID + 1)) row) <;>
    simp [Table.Insert, hv]

theorem insert_success_id (t : Table) (row : Row) (h : (t.Insert row).err = none) :
    (t.Insert row).id = t.autoID + 1 := by
  cases hv : t.schema.Validate (minsert "id" (Value.int (t.autoID + 1)) row) with
  | some e => simp [Table.Insert, hv] at h
  | none => simp [Table.Insert, hv]

theorem deleteRow_autoID (t : Table) (id : Int) :
    ((t.deleteRow id).1).autoID = t.autoID := by
  cases h : mlookup t.data id <;> simp [Table.deleteRow, h]

end InsertLemmas

section TraceLemmas

open DBM DB2

theorem runTblOps_bounds (ops : List TblOp) : ∀ t : Table,
    t.autoID ≤ (t.runTblOps ops).1.autoID
    ∧ (∀ i ∈ (t.runTblOps ops).2, t.autoID < i)
    ∧ List.Pairwise (fun a b => a < b) (t.runTblOps ops).2 := by
  induction ops with
  | nil =>
    intro t
    refine ⟨le_refl _, ?_, ?_⟩ <;> simp [Table.runTblOps]
  | cons op rest ih =>
    intro t
    cases op with
    | del id =>
      have hA : ((t.deleteRow id).1).autoID = t.autoID := deleteRow_autoID t id
      have h := ih (t.deleteRow id).1
      simp only [Table.runTblOps, Table.applyTblOp]
      refine ⟨?_, ?_, h.2.2⟩
      · have := h.1
        omega
      · intro i hi
        have := h.2.1 i hi
        omega
    | ins r =>
      cases he : (t.Insert r).err with
      | none =>
        have hid : (t.Insert r).id = t.autoID + 1 := insert_success_id t r he
        have hA : (t.Insert r).table.autoID = t.autoID + 1 := insert_table_autoID t r
        have h := ih (t.Insert r).table
        simp only [Table.runTblOps, Table.applyTblOp, he, hid]
        refine ⟨?_, ?_, ?_⟩
        · have := h.1
          omega
        · intro i hi
          rcases List.mem_cons.mp hi with h1 | h1
          · omega
          · have := h.2.1 i h1
            omega
        · refine List.pairwise_cons.mpr ⟨?_, h.2.2⟩
          intro b hb
          have := h.2.1 b hb
          omega
      | some e =>
        have hA : (t.Insert r).table.autoID = t.autoID + 1 := insert_table_autoID t r
        have h := ih (t.Insert r).table
        simp only [Table.runTblOps, Table.applyTblOp, he]
        refine ⟨?_, ?_, h.2.2⟩
        · have := h.1
          omega
        · intro i hi
          have := h.2.1 i hi
          omega

theorem runTblOps_len_le (ops : List TblOp) : ∀ t : Table,
    (t.runTblOps ops).2.length ≤ ops.length := by
  induction ops with
  | nil => intro t; simp [Table.runTblOps]
  | cons op rest ih =>
    intro t
    cases op with
    | del id =>
      simp only [Table.runTblOps, Table.applyTblOp, List.length_cons]
      exact Nat.le_succ_of_le (ih (t.deleteRow id).1)
    | ins r =>
      cases he : (t.Insert r).err with
      | none =>
        simp only [Table.runTblOps, Table.applyTblOp, he, List.length_cons]
        exact Nat.succ_le_succ (ih (t.Insert r).table)
      | some e =>
        simp only [Table.runTblOps, Table.applyTblOp, he, List.length_cons]
        exact Nat.le_succ_of_le (ih (t.Insert r).table)

theorem runTblOps_all_success (rows : List Row) : ∀ t : Table,
    (t.runTblOps (rows.map TblOp.ins)).2.length = rows.length →
    (t.runTblOps (rows.map TblOp.ins)).2
      = (List.range rows.length).map (fun n : Nat => t.autoID + (n : Int) + 1) := by
  induction rows with
  | nil => intro t _; simp [Table.runTblOps]
  | cons r rest ih =>
    intro t h
    cases he : (t.Insert r).err with
    | some e =>
      exfalso
      have hlen := runTblOps_len_le (rest.map TblOp.ins) (t.Insert r).table
      simp only [List.map_cons, Table.runTblOps, Table.applyTblOp, he,
        List.length_map, List.length_cons] at h hlen
      omega
    | none =>
      have hid : (t.Insert r).id = t.autoID + 1 := insert_success_id t r he
      have hA : (t.Insert r).table.autoID = t.autoID + 1 := insert_table_autoID t r
      simp only [List.map_cons, Table.runTblOps, Table.applyTblOp, he, hid,
        List.length_cons] at h ⊢
      have h2 : ((t.Insert r).table.runTblOps (rest.map TblOp.ins)).2.length = rest.length := by
        omega
      have h3 := ih (t.Insert r).table h2
      rw [h3, hA, List.range_succ_eq_map, List.map_cons, List.map_map]
      have h4 : ((fun n : Nat => t.autoID + (n : Int) + 1) ∘ Nat.succ)
          = fun n : Nat => t.autoID + 1 + (n : Int) + 1 := by
        funext n
        simp [Function.comp]
        ring
      rw [h4]
      simp

end TraceLemmas


section BucketLemmas

open DBM SpecModel

theorem mem_bucketAdd (b : Buckets) (v : Value) (id : Int) (v2 : Value) (id2 : Int) :
    id2 ∈ bucketIds (bucketAdd b v id) v2
      ↔ (id2 ∈ bucketIds b v2 ∨ (v2 = v ∧ id2 = id)) := by
  cases h : mlookup b v with
  | none =>
    simp only [bucketAdd, h, bucketIds, mlookup_minsert]
    by_cases hv : v = v2
    · subst hv
      rw [if_pos rfl, h]
      simp
    · have hv2 : ¬ v2 = v := fun he2 => hv he2.symm
      rw [if_neg hv]
      simp [hv2]
  | some s =>
    by_cases hm : id ∈ s
    · simp only [bucketAdd, h, if_pos hm, bucketIds]
      by_cases hv : v2 = v
      · subst hv
        rw [h]
        simp only [Option.getD_some]
        constructor
        · exact fun hh => Or.inl hh
        · rintro (hh | ⟨_, rfl⟩)
          · exact hh
          · exact hm
      · simp [hv]
    · simp only [bucketAdd, h, if_neg hm, bucketIds, mlookup_minsert]
      by_cases hv : v = v2
      · subst hv
        rw [if_pos rfl, h]
        simp only [Option.getD_some, List.mem_cons]
        tauto
      · have hv2 : ¬ v2 = v := fun he2 => hv he2.symm
        rw [if_neg hv]
        simp [hv2]

end BucketLemmas

section BucketRemoveLemmas

open DBM SpecModel

theorem mem_bucketRemove (b : Buckets) (v : Value) (id : Int) (v2 : Value) (id2 : Int) :
    id2 ∈ bucketIds (bucketRemove b v id) v2
      ↔ (id2 ∈ bucketIds b v2 ∧ ¬(v2 = v ∧ id2 = id)) := by
  cases h : mlookup b v with
  | none =>
    simp only [bucketRemove, h, bucketIds]
    by_cases hv : v2 = v
    · subst hv
      rw [h]
      simp
    · simp [hv]
  | some s =>
    by_cases he : s.filter (fun x => decide (x ≠ id)) = []
    · simp only [bucketRemove, h, if_pos he, bucketIds, mlookup_merase]
      by_cases hv : v = v2
      · subst hv
        rw [if_pos rfl, h]
        simp only [Option.getD_none, Option.getD_some, List.not_mem_nil, false_iff]
        rintro ⟨hmem, hcon⟩
        have hne : id2 ≠ id := fun heq => hcon (by simp [heq])
        have hf : id2 ∈ s.filter (fun x => decide (x ≠ id)) :=
          List.mem_filter.mpr ⟨hmem, by simpa using hne⟩
        rw [he] at hf
        exact absurd hf (List.not_mem_nil id2)
      · have hv2 : ¬ v2 = v := fun he2 => hv he2.symm
        rw [if_neg hv]
        simp [hv2]
    · simp only [bucketRemove, h, if_neg he, bucketIds, mlookup_minsert]
      by_cases hv : v = v2
      · subst hv
        rw [if_pos rfl, h]
        simp only [Option.getD_some, List.mem_filter, decide_eq_true_eq]
        tauto
      · have hv2 : ¬ v2 = v := fun he2 => hv he2.symm
        rw [if_neg hv]
        simp [hv2]

theorem noempty_bucketAdd (b : Buckets) (v : Value) (id : Int)
    (h : ∀ v2 s, mlookup b v2 = some s → s ≠ []) :
    ∀ v2 s, mlookup (bucketAdd b v id) v2 = some s → s ≠ [] := by
  intro v2 s hs
  cases hm : mlookup b v with
  | none =>
    simp only [bucketAdd, hm, mlookup_minsert] at hs
    by_cases hv : v = v2
    · rw [if_pos hv] at hs
      injection hs with hs2
      intro hnil
      rw [hnil] at hs2
      exact List.cons_ne_nil id [] hs2
    · rw [if_neg hv] at hs
      exact h v2 s hs
  | some s0 =>
    by_cases hmem : id ∈ s0
    · simp only [bucketAdd, hm, if_pos hmem] at hs
      exact h v2 s hs
    · simp only [bucketAdd, hm, if_neg hmem, mlookup_minsert] at hs
      by_cases hv : v = v2
      · rw [if_pos hv] at hs
        injection hs with hs2
        intro hnil
        rw [hnil] at hs2
        exact List.cons_ne_nil id s0 hs2
      · rw [if_neg hv] at hs
        exact h v2 s hs

theorem noempty_bucketRemove (b : Buckets) (v : Value) (id : Int)
    (h : ∀ v2 s, mlookup b v2 = some s → s ≠ []) :
    ∀ v2 s, mlookup (bucketRemove b v id) v2 = some s → s ≠ [] := by
  intro v2 s hs
  cases hm : mlookup b v with
  | none =>
    simp only [bucketRemove, hm] at hs
    exact h v2 s hs
  | some s0 =>
    by_cases he : s0.filter (fun x => decide (x ≠ id)) = []
    · simp only [bucketRemove, hm, if_pos he, mlookup_merase] at hs
      by_cases hv : v = v2
      · rw [if_pos hv] at hs
        exact absurd hs (by simp)
      · rw [if_neg hv] at hs
        exact h v2 s hs
    · simp only [bucketRemove, hm, if_neg he, mlookup_minsert] at hs
      by_cases hv : v = v2
      · rw [if_pos hv] at hs
        injection hs with hs2
        intro hnil
        rw [hnil] at hs2
        exact he hs2
      · rw [if_neg hv] at hs
        exact h v2 s hs

end BucketRemoveLemmas

section IndexInvLemmas

open DBM DB2 SpecModel

theorem fresh_id_none (t : ITable) (hbound : ∀ id row, mlookup t.data id = some row → id ≤ t.autoID) :
    mlookup t.data (t.autoID + 1) = none := by
  cases hl : mlookup t.data (t.autoID + 1) with
  | none => rfl
  | some r0 =>
    have := hbound _ _ hl
    omega

theorem inv_insertRow (t : ITable) (row : Row) (hinv : t.Inv) :
    ((t.insertRow row).1).Inv := by
  obtain ⟨hbound, hnodup, hidx⟩ := hinv
  have hfresh : mlookup t.data (t.autoID + 1) = none := fresh_id_none t hbound
  cases hv : t.schema.Validate (minsert "id" (Value.int (t.autoID + 1)) row) with
  | some e =>
    simp only [ITable.insertRow, hv]
    refine ⟨?_, hnodup, hidx⟩
    intro id r0 hl
    dsimp only at hl ⊢
    have := hbound id r0 hl
    omega
  | none =>
    simp only [ITable.insertRow, hv]
    refine ⟨?_, ?_, ?_⟩
    · intro id r0 hl
      dsimp only at hl ⊢
      rw [mlookup_minsert] at hl
      by_cases hid : t.autoID + 1 = id
      · omega
      · rw [if_neg hid] at hl
        have := hbound id r0 hl
        omega
    · exact nodup_keys_minsert _ _ _ hnodup
    · intro c b2 hl2
      rw [mlookup_mapVal
        (fun c0 b0 => match Row.get (minsert "id" (Value.int (t.autoID + 1)) row) c0 with
                      | some v => bucketAdd b0 v (t.autoID + 1)
                      | none => b0) t.indexes c] at hl2
      cases hb : mlookup t.indexes c with
      | none =>
        rw [hb] at hl2
        exact absurd hl2 (by simp)
      | some b =>
        rw [hb] at hl2
        simp only [Option.map_some'] at hl2
        injection hl2 with hl2e
        obtain ⟨hIffOld, hNE⟩ := hidx c b hb
        subst hl2e
        cases hrc : Row.get (minsert "id" (Value.int (t.autoID + 1)) row) c with
        | some v0 =>
          refine ⟨?_, noempty_bucketAdd b v0 (t.autoID + 1) hNE⟩
          intro v id2
          rw [mem_bucketAdd]
          constructor
          · rintro (hmem | ⟨rfl, rfl⟩)
            · obtain ⟨r0, hr0, hgc⟩ := (hIffOld v id2).mp hmem
              refine ⟨r0, ?_, hgc⟩
              rw [mlookup_minsert]
              by_cases hid : t.autoID + 1 = id2
              · exfalso
                rw [← hid, hfresh] at hr0
                exact Option.noConfusion hr0
              · rw [if_neg hid]
                exact hr0
            · refine ⟨minsert "id" (Value.int (t.autoID + 1)) row, ?_, hrc⟩
              rw [mlookup_minsert, if_pos rfl]
          · rintro ⟨r0, hr0, hgc⟩
            rw [mlookup_minsert] at hr0
            by_cases hid : t.autoID + 1 = id2
            · rw [if_pos hid] at hr0
              injection hr0 with hr0e
              subst hr0e
              right
              rw [hrc] at hgc
              injection hgc with hv0
              exact ⟨hv0.symm, hid.symm⟩
            · rw [if_neg hid] at hr0
              left
              exact (hIffOld v id2).mpr ⟨r0, hr0, hgc⟩
        | none =>
          refine ⟨?_, hNE⟩
          intro v id2
          constructor
          · intro hmem
            obtain ⟨r0, hr0, hgc⟩ := (hIffOld v id2).mp hmem
            refine ⟨r0, ?_, hgc⟩
            rw [mlookup_minsert]
            by_cases hid : t.autoID + 1 = id2
            · exfalso
              rw [← hid, hfresh] at hr0
              exact Option.noConfusion hr0
            · rw [if_neg hid]
              exact hr0
          · rintro ⟨r0, hr0, hgc⟩
            rw [mlookup_minsert] at hr0
            by_cases hid : t.autoID + 1 = id2
            · rw [if_pos hid] at hr0
              injection hr0 with hr0e
              subst hr0e
              rw [hrc] at hgc
              exact absurd hgc (by simp)
            · rw [if_neg hid] at hr0
              exact (hIffOld v id2).mpr ⟨r0, hr0, hgc⟩

end IndexInvLemmas

section UpdateInvLemmas

open DBM DB2 SpecModel

theorem Row_get_minsert (k c : String) (v : Value) (r : Row) :
    Row.get (minsert k v r) c = if k = c then some v else Row.get r c :=
  mlookup_minsert k c v r

theorem inv_setCol (t : ITable) (id : Int) (row : Row) (k : String) (v : Value)
    (hinv : t.Inv) (hrow : mlookup t.data id = some row) :
    ((t.setCol id row k v).1).Inv
    ∧ mlookup ((t.setCol id row k v).1).data id = some ((t.setCol id row k v).2) := by
  obtain ⟨hbound, hnodup, hidx⟩ := hinv
  constructor
  · refine ⟨?_, ?_, ?_⟩
    · intro id2 r0 hl
      simp only [ITable.setCol] at hl ⊢
      rw [mlookup_minsert] at hl
      by_cases hid : id = id2
      · subst hid
        exact hbound id row hrow
      · rw [if_neg hid] at hl
        exact hbound id2 r0 hl
    · simp only [ITable.setCol]
      exact nodup_keys_minsert _ _ _ hnodup
    · intro c b2 hl2
      simp only [ITable.setCol] at hl2 ⊢
      rw [mlookup_mapVal (fun c0 b0 => if c0 = k then
              bucketAdd (match Row.get row k with
                         | some ov => bucketRemove b0 ov id
                         | none => b0) v id
            else b0) t.indexes c] at hl2
      cases hb : mlookup t.indexes c with
      | none =>
        rw [hb] at hl2
        exact absurd hl2 (by simp)
      | some b =>
        rw [hb] at hl2
        simp only [Option.map_some'] at hl2
        injection hl2 with hl2e
        obtain ⟨hIffOld, hNE⟩ := hidx c b hb
        subst hl2e
        by_cases hck : c = k
        · subst hck
          rw [if_pos rfl]
          cases hold : Row.get row c with
          | some ov =>
            refine ⟨?_, noempty_bucketAdd _ _ _ (noempty_bucketRemove _ _ _ hNE)⟩
            intro v2 id2
            rw [mem_bucketAdd, mem_bucketRemove]
            constructor
            · rintro (⟨hmem, hne⟩ | ⟨rfl, rfl⟩)
              · obtain ⟨r0, hr0, hgc⟩ := (hIffOld v2 id2).mp hmem
                by_cases hid : id = id2
                · exfalso
                  subst hid
                  rw [hrow] at hr0
                  injection hr0 with hr0e
                  subst hr0e
                  rw [hold] at hgc
                  injection hgc with hove
                  exact hne ⟨hove.symm, rfl⟩
                · refine ⟨r0, ?_, hgc⟩
                  rw [mlookup_minsert, if_neg hid]
                  exact hr0
              · refine ⟨minsert c v2 row, ?_, ?_⟩
                · rw [mlookup_minsert, if_pos rfl]
                · rw [Row_get_minsert, if_pos rfl]
            · rintro ⟨r0, hr0, hgc⟩
              rw [mlookup_minsert] at hr0
              by_cases hid : id = id2
              · rw [if_pos hid] at hr0
                injection hr0 with hr0e
                subst hr0e
                right
                rw [Row_get_minsert, if_pos rfl] at hgc
                injection hgc with hgce
                exact ⟨hgce.symm, hid.symm⟩
              · rw [if_neg hid] at hr0
                left
                refine ⟨(hIffOld v2 id2).mpr ⟨r0, hr0, hgc⟩, ?_⟩
                exact fun hcon => hid hcon.2.symm
          | none =>
            refine ⟨?_, noempty_bucketAdd _ _ _ hNE⟩
            intro v2 id2
            rw [mem_bucketAdd]
            constructor
            · rintro (hmem | ⟨rfl, rfl⟩)
              · obtain ⟨r0, hr0, hgc⟩ := (hIffOld v2 id2).mp hmem
                by_cases hid : id = id2
                · exfalso
                  subst hid
                  rw [hrow] at hr0
                  injection hr0 with hr0e
                  subst hr0e
                  rw [hold] at hgc
                  exact Option.noConfusion hgc
                · refine ⟨r0, ?_, hgc⟩
                  rw [mlookup_minsert, if_neg hid]
                  exact hr0
              · refine ⟨minsert c v2 row, ?_, ?_⟩
                · rw [mlookup_minsert, if_pos rfl]
                · rw [Row_get_minsert, if_pos rfl]
            · rintro ⟨r0, hr0, hgc⟩
              rw [mlookup_minsert] at hr0
              by_cases hid : id = id2
              · rw [if_pos hid] at hr0
                injection hr0 with hr0e
                subst hr0e
                right
                rw [Row_get_minsert, if_pos rfl] at hgc
                injection hgc with hgce
                exact ⟨hgce.symm, hid.symm⟩
              · rw [if_neg hid] at hr0
                left
                exact (hIffOld v2 id2).mpr ⟨r0, hr0, hgc⟩
        · rw [if_neg hck]
          refine ⟨?_, hNE⟩
          intro v2 id2
          constructor
          · intro hmem
            obtain ⟨r0, hr0, hgc⟩ := (hIffOld v2 id2).mp hmem
            by_cases hid : id = id2
            · subst hid
              rw [hrow] at hr0
              injection hr0 with hr0e
              subst hr0e
              refine ⟨minsert k v row, ?_, ?_⟩
              · rw [mlookup_minsert, if_pos rfl]
              · rw [Row_get_minsert, if_neg (fun he => hck he.symm)]
                exact hgc
            · refine ⟨r0, ?_, hgc⟩
              rw [mlookup_minsert, if_neg hid]
              exact hr0
          · rintro ⟨r0, hr0, hgc⟩
            rw [mlookup_minsert] at hr0
            by_cases hid : id = id2
            · rw [if_pos hid] at hr0
              injection hr0 with hr0e
              subst hr0e
              rw [Row_get_minsert, if_neg (fun he => hck he.symm)] at hgc
              apply (hIffOld v2 id2).mpr
              refine ⟨row, ?_, hgc⟩
              rw [← hid]
              exact hrow
            · rw [if_neg hid] at hr0
              exact (hIffOld v2 id2).mpr ⟨r0, hr0, hgc⟩
  · simp only [ITable.setCol]
    rw [mlookup_minsert, if_pos rfl]

theorem inv_applyCols (patch : List (String × Value)) : ∀ (t : ITable) (id : Int) (row : Row),
    t.Inv → mlookup t.data id = some row →
    ((ITable.applyCols t id row patch).1).Inv := by
  induction patch with
  | nil =>
    intro t id row hinv _
    simpa [ITable.applyCols] using hinv
  | cons kv rest ih =>
    intro t id row hinv hrow
    obtain ⟨k, v⟩ := kv
    simp only [ITable.applyCols]
    have h := inv_setCol t id row k v hinv hrow
    exact ih _ _ _ h.1 h.2

theorem inv_updateById (t : ITable) (id : Int) (patch : Row) (hinv : t.Inv) :
    ((t.updateById id patch).1).Inv := by
  cases hl : mlookup t.data id with
  | none => simpa [ITable.updateById, hl] using hinv
  | some row =>
    simp only [ITable.updateById, hl]
    cases hv : t.schema.Validate ((ITable.applyCols t id row patch).2) with
    | some e =>
      simp only [hv]
      exact inv_applyCols patch t id row hinv hl
    | none =>
      simp only [hv]
      exact inv_applyCols patch t id row hinv hl

end UpdateInvLemmas

section DeleteInvLemmas

open DBM DB2 SpecModel

theorem inv_deleteById (t : ITable) (id : Int) (hinv : t.Inv) :
    ((t.deleteById id).1).Inv := by
  obtain ⟨hbound, hnodup, hidx⟩ := hinv
  cases hl : mlookup t.data id with
  | none =>
    simp only [ITable.deleteById, hl]
    exact ⟨hbound, hnodup, hidx⟩
  | some row =>
    simp only [ITable.deleteById, hl]
    refine ⟨?_, ?_, ?_⟩
    · intro id2 r0 hr
      rw [mlookup_merase] at hr
      by_cases hid : id = id2
      · rw [if_pos hid] at hr
        exact absurd hr (by simp)
      · rw [if_neg hid] at hr
        exact hbound id2 r0 hr
    · exact nodup_keys_merase _ _ hnodup
    · intro c b2 hl2
      rw [mlookup_mapVal (fun c0 b0 => match Row.get row c0 with
            | some v => bucketRemove b0 v id
            | none => b0) t.indexes c] at hl2
      cases hb : mlookup t.indexes c with
      | none =>
        rw [hb] at hl2
        exact absurd hl2 (by simp)
      | some b =>
        rw [hb] at hl2
        simp only [Option.map_some'] at hl2
        injection hl2 with hl2e
        obtain ⟨hIffOld, hNE⟩ := hidx c b hb
        subst hl2e
        cases hrc : Row.get row c with
        | some v0 =>
          refine ⟨?_, noempty_bucketRemove _ _ _ hNE⟩
          intro v2 id2
          rw [mem_bucketRemove]
          constructor
          · rintro ⟨hmem, hne⟩
            obtain ⟨r0, hr0, hgc⟩ := (hIffOld v2 id2).mp hmem
            by_cases hid : id = id2
            · exfalso
              subst hid
              rw [hl] at hr0
              injection hr0 with hr0e
              subst hr0e
              rw [hrc] at hgc
              injection hgc with hv0e
              exact hne ⟨hv0e.symm, rfl⟩
            · refine ⟨r0, ?_, hgc⟩
              rw [mlookup_merase, if_neg hid]
              exact hr0
          · rintro ⟨r0, hr0, hgc⟩
            rw [mlookup_merase] at hr0
            by_cases hid : id = id2
            · rw [if_pos hid] at hr0
              exact absurd hr0 (by simp)
            · rw [if_neg hid] at hr0
              refine ⟨(hIffOld v2 id2).mpr ⟨r0, hr0, hgc⟩, ?_⟩
              exact fun hcon => hid hcon.2.symm
        | none =>
          refine ⟨?_, hNE⟩
          intro v2 id2
          constructor
          · intro hmem
            obtain ⟨r0, hr0, hgc⟩ := (hIffOld v2 id2).mp hmem
            by_cases hid : id = id2
            · exfalso
              subst hid
              rw [hl] at hr0
              injection hr0 with hr0e
              subst hr0e
              rw [hrc] at hgc
              exact Option.noConfusion hgc
            · refine ⟨r0, ?_, hgc⟩
              rw [mlookup_merase, if_neg hid]
              exact hr0
          · rintro ⟨r0, hr0, hgc⟩
            rw [mlookup_merase] at hr0
            by_cases hid : id = id2
            · rw [if_pos hid] at hr0
              exact absurd hr0 (by simp)
            · rw [if_neg hid] at hr0
              exact (hIffOld v2 id2).mpr ⟨r0, hr0, hgc⟩

end DeleteInvLemmas

section BuildInvLemmas

open DBM DB2 SpecModel

theorem mem_buildFold (c : String) :
    ∀ (data : List (Int × Row)) (b0 : Buckets),
    (data.map Prod.fst).Nodup →
    ∀ id v, id ∈ bucketIds (data.foldl (fun b idrow =>
        match Row.get idrow.2 c with
        | some v2 => bucketAdd b v2 idrow.1
        | none => b) b0) v
      ↔ (id ∈ bucketIds b0 v ∨ ∃ r0, mlookup data id = some r0 ∧ Row.get r0 c = some v) := by
  intro data
  induction data with
  | nil =>
    intro b0 _ id v
    simp [mlookup]
  | cons p rest ih =>
    intro b0 hnodup id v
    obtain ⟨i, r⟩ := p
    simp only [List.foldl_cons]
    have hnodup2 : (rest.map Prod.fst).Nodup := by
      simp only [List.map_cons, List.nodup_cons] at hnodup
      exact hnodup.2
    have hnotmem : i ∉ rest.map Prod.fst := by
      simp only [List.map_cons, List.nodup_cons] at hnodup
      exact hnodup.1
    have hrestnone : mlookup rest i = none := mlookup_eq_none_of_not_mem_keys rest i hnotmem
    rw [ih _ hnodup2]
    cases hrc : Row.get r c with
    | some v2 =>
      rw [mem_bucketAdd]
      simp only [mlookup]
      by_cases hid : i = id
      · rw [if_pos hid]
        constructor
        · rintro ((hb0 | ⟨hvv, hii⟩) | ⟨r0, hr0, hgc⟩)
          · exact Or.inl hb0
          · refine Or.inr ⟨r, rfl, ?_⟩
            rw [hrc, hvv]
          · rw [← hid, hrestnone] at hr0
            exact absurd hr0 (by simp)
        · rintro (hb0 | ⟨r0, hr0, hgc⟩)
          · exact Or.inl (Or.inl hb0)
          · injection hr0 with hr0e
            subst hr0e
            rw [hrc] at hgc
            injection hgc with hve
            exact Or.inl (Or.inr ⟨hve.symm, hid.symm⟩)
      · rw [if_neg hid]
        constructor
        · rintro ((hb0 | ⟨hvv, hii⟩) | hrest)
          · exact Or.inl hb0
          · exact absurd hii.symm hid
          · exact Or.inr hrest
        · rintro (hb0 | hrest)
          · exact Or.inl (Or.inl hb0)
          · exact Or.inr hrest
    | none =>
      simp only [mlookup]
      by_cases hid : i = id
      · rw [if_pos hid]
        constructor
        · rintro (hb0 | ⟨r0, hr0, hgc⟩)
          · exact Or.inl hb0
          · rw [← hid, hrestnone] at hr0
            exact absurd hr0 (by simp)
        · rintro (hb0 | ⟨r0, hr0, hgc⟩)
          · exact Or.inl hb0
          · injection hr0 with hr0e
            subst hr0e
            rw [hrc] at hgc
            exact absurd hgc (by simp)
      · rw [if_neg hid]

theorem noempty_buildFold (c : String) :
    ∀ (data : List (Int × Row)) (b0 : Buckets),
    (∀ v s, mlookup b0 v = some s → s ≠ []) →
    ∀ v s, mlookup (data.foldl (fun b idrow =>
        match Row.get idrow.2 c with
        | some v2 => bucketAdd b v2 idrow.1
        | none => b) b0) v = some s → s ≠ [] := by
  intro data
  induction data with
  | nil => intro b0 h; exact h
  | cons p rest ih =>
    intro b0 h
    simp only [List.foldl_cons]
    apply ih
    cases hrc : Row.get p.2 c with
    | some v2 => exact noempty_bucketAdd b0 v2 p.1 h
    | none => exact h

theorem inv_createIndex (t : ITable) (c : String) (hinv : t.Inv) :
    (t.createIndex c).Inv := by
  obtain ⟨hbound, hnodup, hidx⟩ := hinv
  refine ⟨hbound, hnodup, ?_⟩
  intro c2 b2 hl2
  simp only [ITable.createIndex] at hl2 ⊢
  rw [mlookup_minsert] at hl2
  by_cases hc : c = c2
  · rw [if_pos hc] at hl2
    injection hl2 with hl2e
    subst hl2e
    subst hc
    constructor
    · intro v id
      rw [buildBuckets, mem_buildFold c t.data [] hnodup]
      simp [bucketIds, mlookup]
    · intro v s
      exact noempty_buildFold c t.data [] (by intro v2 s2 h2; exact absurd h2 (by simp [mlookup])) v s
  · rw [if_neg hc] at hl2
    exact hidx c2 b2 hl2

end BuildInvLemmas

section RunOpsInv

open DBM DB2 SpecModel

theorem inv_applyOp (t : ITable) (op : TOp) (hinv : t.Inv) : (t.applyOp op).Inv := by
  cases op with
  | ins r => exact inv_insertRow t r hinv
  | upd id p => exact inv_updateById t id p hinv
  | del id => exact inv_deleteById t id hinv
  | cidx c => exact inv_createIndex t c hinv

theorem inv_NewITable (s : Schema) : (NewITable s).Inv := by
  refine ⟨?_, ?_, ?_⟩
  · intro id row h
    exact absurd h (by simp [NewITable, mlookup])
  · simp [NewITable]
  · intro c b h
    exact absurd h (by simp [NewITable, mlookup])

theorem inv_runOps (ops : List TOp) : ∀ t : ITable, t.Inv → (t.runOps ops).Inv := by
  induction ops with
  | nil => intro t h; exact h
  | cons op rest ih =>
    intro t h
    exact ih (t.applyOp op) (inv_applyOp t op h)

end RunOpsInv

/-- C1: Schema.Validate accepts a row iff every declared required column is
present and every declared column that is present passes its column
validator; columns of the row that the schema does not declare are never
consulted, so validation agrees on any two rows that agree on the declared
columns (extra undeclared columns cannot cause a failure). -/
theorem C1_schema_validation_iff (s : DB2.Schema) (row row2 : DBM.Row) :
    (DB2.Schema.Validate s row = none ↔ ∀ p ∈ s.columns, DB2.colOKB row p = true)
    ∧ ((∀ p ∈ s.columns, DBM.Row.get row p.1 = DBM.Row.get row2 p.1) →
        (DB2.Schema.Validate s row = none ↔ DB2.Schema.Validate s row2 = none)) := by
  constructor
  · exact validateCols_none_iff s.columns row
  · intro h
    have h2 := validateCols_congr s.columns row row2 h
    simp only [DB2.Schema.Validate]
    rw [h2]

/-- Witness for C1 at the scenario schema: a row carrying an extra
undeclared column passes, and dropping the extra column does not change
the verdict. -/
theorem C1_witness :
    DB2.Schema.Validate (DB2.NewSchema [⟨"name", DB2.ColumnDataType.stringType false, true⟩])
        [("name", DBM.Value.str "A"), ("extra", DBM.Value.int 5)] = none
    ∧ (DB2.Schema.Validate (DB2.NewSchema [⟨"name", DB2.ColumnDataType.stringType false, true⟩])
          [("name", DBM.Value.str "A"), ("extra", DBM.Value.int 5)] = none
       ↔ DB2.Schema.Validate (DB2.NewSchema [⟨"name", DB2.ColumnDataType.stringType false, true⟩])
          [("name", DBM.Value.str "A")] = none) := by
  constructor
  · exact (C1_schema_validation_iff (DB2.NewSchema [⟨"name", DB2.ColumnDataType.stringType false, true⟩])
      [("name", DBM.Value.str "A"), ("extra", DBM.Value.int 5)] []).1.mpr (by decide)
  · exact (C1_schema_validation_iff (DB2.NewSchema [⟨"name", DB2.ColumnDataType.stringType false, true⟩])
      [("name", DBM.Value.str "A"), ("extra", DBM.Value.int 5)]
      [("name", DBM.Value.str "A")]).2 (by decide)

/-- C2: on a trace of Inserts and (spec-modelled) deletes starting from a
fresh table, the ids returned by successful Inserts are strictly
increasing and positive — so an id is never reused, also after a delete —
and when every Insert of an all-Insert trace succeeds the returned ids
are exactly 1, 2, ..., N. -/
theorem C2_insert_id_assignment (s : DB2.Schema) (nm : String) (ops : List DB2.TblOp)
    (rows : List DBM.Row) :
    List.Pairwise (fun a b => a < b) ((DB2.NewTable nm s).runTblOps ops).2
    ∧ (∀ i ∈ ((DB2.NewTable nm s).runTblOps ops).2, 0 < i)
    ∧ (((DB2.NewTable nm s).runTblOps (rows.map DB2.TblOp.ins)).2.length = rows.length →
        ((DB2.NewTable nm s).runTblOps (rows.map DB2.TblOp.ins)).2
          = (List.range rows.length).map (fun n : Nat => (n : Int) + 1)) := by
  have hb := runTblOps_bounds ops (DB2.NewTable nm s)
  have h0 : (DB2.NewTable nm s).autoID = 0 := rfl
  refine ⟨hb.2.2, ?_, ?_⟩
  · intro i hi
    have := hb.2.1 i hi
    omega
  · intro hlen
    have h := runTblOps_all_success rows (DB2.NewTable nm s) hlen
    rw [h]
    have hfun : (fun n : Nat => (DB2.NewTable nm s).autoID + (n : Int) + 1)
        = fun n : Nat => (n : Int) + 1 := by
      funext n
      rw [h0]
      ring
    rw [hfun]

/-- Witness for C2: two successful Inserts on a fresh table return 1, 2. -/
theorem C2_witness :
    ((DB2.NewTable "users" DB2.wsSchema).runTblOps
        ([DB2.wRowOK, DB2.wRowOK].map DB2.TblOp.ins)).2 = [(1 : Int), 2] := by
  have h := (C2_insert_id_assignment DB2.wsSchema "users" [] [DB2.wRowOK, DB2.wRowOK]).2.2
    (by decide)
  rw [h]
  decide

/-- C3: an Insert whose (id-augmented) row fails validation returns an
error and id 0, leaves the row store untouched, yet advances the counter,
so the next successful Insert returns an id two greater than the
pre-failure counter — one id is skipped. -/
theorem C3_failed_insert (t : DB2.Table) (row : DBM.Row)
    (h : DB2.Schema.Validate t.schema (DBM.minsert "id" (DBM.Value.int (t.autoID + 1)) row) ≠ none) :
    (DB2.Table.Insert t row).err.isSome = true
    ∧ (DB2.Table.Insert t row).id = 0
    ∧ (DB2.Table.Insert t row).table.data = t.data
    ∧ (DB2.Table.Insert t row).table.autoID = t.autoID + 1
    ∧ (∀ row2, ((DB2.Table.Insert t row).table.Insert row2).err = none →
        ((DB2.Table.Insert t row).table.Insert row2).id = t.autoID + 2) := by
  cases hv : DB2.Schema.Validate t.schema (DBM.minsert "id" (DBM.Value.int (t.autoID + 1)) row) with
  | none => exact absurd hv h
  | some e =>
    refine ⟨?_, ?_, ?_, ?_, ?_⟩
    · simp [DB2.Table.Insert, hv]
    · simp [DB2.Table.Insert, hv]
    · simp [DB2.Table.Insert, hv]
    · simp [DB2.Table.Insert, hv]
    · intro row2 he
      have h2 := insert_success_id (DB2.Table.Insert t row).table row2 he
      have h3 : (DB2.Table.Insert t row).table.autoID = t.autoID + 1 := insert_table_autoID t row
      omega

/-- Witness for C3 at the scenario: inserting age 200 against bound
[0, 150] fails with id 0 and an unchanged empty store, and the following
successful insert of age 30 returns id 2, skipping 1. -/
theorem C3_witness :
    (DB2.Table.Insert DB2.wsTable DB2.wRowBad).id = 0
    ∧ (DB2.Table.Insert DB2.wsTable DB2.wRowBad).table.data = DB2.wsTable.data
    ∧ ((DB2.Table.Insert DB2.wsTable DB2.wRowBad).table.Insert DB2.wRowOK).id
        = DB2.wsTable.autoID + 2 := by
  have h := C3_failed_insert DB2.wsTable DB2.wRowBad (by decide)
  exact ⟨h.2.1, h.2.2.1, h.2.2.2.2 DB2.wRowOK (by decide)⟩

/-- C10: Insert writes the freshly generated id into the caller-supplied
row map under the key id, silently overwriting any value already there,
leaving every other key unchanged; the mutation persists when validation
subsequently fails, in which case the returned id is 0. -/
theorem C10_insert_mutates_caller_row (t : DB2.Table) (row : DBM.Row) :
    (DB2.Table.Insert t row).row = DBM.minsert "id" (DBM.Value.int (t.autoID + 1)) row
    ∧ DBM.Row.get (DB2.Table.Insert t row).row "id" = some (DBM.Value.int (t.autoID + 1))
    ∧ (∀ k, k ≠ "id" → DBM.Row.get (DB2.Table.Insert t row).row k = DBM.Row.get row k)
    ∧ ((DB2.Table.Insert t row).err.isSome = true → (DB2.Table.Insert t row).id = 0) := by
  have hrow : (DB2.Table.Insert t row).row
      = DBM.minsert "id" (DBM.Value.int (t.autoID + 1)) row := by
    cases hv : DB2.Schema.Validate t.schema (DBM.minsert "id" (DBM.Value.int (t.autoID + 1)) row) <;>
      simp [DB2.Table.Insert, hv]
  refine ⟨hrow, ?_, ?_, ?_⟩
  · rw [hrow, Row_get_minsert, if_pos rfl]
  · intro k hk
    rw [hrow, Row_get_minsert, if_neg (fun he => hk he.symm)]
  · intro he
    cases hv : DB2.Schema.Validate t.schema (DBM.minsert "id" (DBM.Value.int (t.autoID + 1)) row) with
    | none => simp [DB2.Table.Insert, hv] at he
    | some e => simp [DB2.Table.Insert, hv]

/-- Witness for C10: a failing insert of a row that already carried
id 99 still ends with the caller map holding the generated id, its other
key unchanged, and the returned id 0. -/
theorem C10_witness :
    DBM.Row.get (DB2.Table.Insert DB2.wsTable
        [("id", DBM.Value.int 99), ("age", DBM.Value.int 200)]).row "id"
      = some (DBM.Value.int (DB2.wsTable.autoID + 1))
    ∧ DBM.Row.get (DB2.Table.Insert DB2.wsTable
        [("id", DBM.Value.int 99), ("age", DBM.Value.int 200)]).row "age"
      = DBM.Row.get [("id", DBM.Value.int 99), ("age", DBM.Value.int 200)] "age"
    ∧ (DB2.Table.Insert DB2.wsTable
        [("id", DBM.Value.int 99), ("age", DBM.Value.int 200)]).id = 0 := by
  have h := C10_insert_mutates_caller_row DB2.wsTable
    [("id", DBM.Value.int 99), ("age", DBM.Value.int 200)]
  exact ⟨h.2.1, h.2.2.1 "age" (by decide), h.2.2.2 (by decide)⟩

/-- C4: after any trace of insert/update/delete/createIndex on a fresh
spec-modelled indexed table, for every registered index on a column, a
stored row with a value in that column has its id in the bucket of that
value and of no other bucket, every bucket entry points back at a stored
row carrying its value, and no bucket is empty. -/
theorem C4_index_consistency (s : DB2.Schema) (ops : List SpecModel.TOp)
    (c : String) (b : SpecModel.Buckets)
    (hb : DBM.mlookup (SpecModel.ITable.runOps (SpecModel.NewITable s) ops).indexes c = some b) :
    (∀ id row v,
        DBM.mlookup (SpecModel.ITable.runOps (SpecModel.NewITable s) ops).data id = some row →
        DBM.Row.get row c = some v →
        id ∈ SpecModel.bucketIds b v ∧ ∀ v2, v2 ≠ v → id ∉ SpecModel.bucketIds b v2)
    ∧ (∀ v id, id ∈ SpecModel.bucketIds b v →
        ∃ row, DBM.mlookup (SpecModel.ITable.runOps (SpecModel.NewITable s) ops).data id = some row
          ∧ DBM.Row.get row c = some v)
    ∧ (∀ v s2, DBM.mlookup b v = some s2 → s2 ≠ []) := by
  have hinv := inv_runOps ops (SpecModel.NewITable s) (inv_NewITable s)
  obtain ⟨hbound, hnodup, hidx⟩ := hinv
  obtain ⟨hIff, hNE⟩ := hidx c b hb
  refine ⟨?_, ?_, hNE⟩
  · intro id row v hrow hget
    constructor
    · exact (hIff v id).mpr ⟨row, hrow, hget⟩
    · intro v2 hne hmem
      obtain ⟨row2, hrow2, hget2⟩ := (hIff v2 id).mp hmem
      rw [hrow] at hrow2
      injection hrow2 with he
      subst he
      rw [hget] at hget2
      injection hget2 with he2
      exact hne he2.symm
  · intro v id hmem
    exact (hIff v id).mp hmem

/-- Witness for C4: create an index on name, insert a row with name
Alice; id 1 sits in the Alice bucket and not in the Bob bucket. -/
theorem C4_witness :
    (1 : Int) ∈ SpecModel.bucketIds [(DBM.Value.str "Alice", [1])] (DBM.Value.str "Alice")
    ∧ (1 : Int) ∉ SpecModel.bucketIds [(DBM.Value.str "Alice", [1])] (DBM.Value.str "Bob") := by
  have h := C4_index_consistency (DB2.NewSchema [])
    [SpecModel.TOp.cidx "name", SpecModel.TOp.ins [("name", DBM.Value.str "Alice")]]
    "name" [(DBM.Value.str "Alice", [1])] (by decide)
  have h2 := h.1 1 [("id", DBM.Value.int 1), ("name", DBM.Value.str "Alice")]
    (DBM.Value.str "Alice") (by decide) (by decide)
  exact ⟨h2.1, h2.2 (DBM.Value.str "Bob") (by decide)⟩

/-- C5: the source QuerySimple ranges over the Go row map without
sorting, so the result order is the map iteration order: on a two-row
table, one admissible iteration order yields a result that is not in
ascending id order, another yields the ascending order, and the two
results differ — the claimed sortedness and determinism fail on the
code. -/
theorem C5_query_order_not_sorted :
    DB2.IsIterOrder [2, 1] DB2.tblTwoRows.data
    ∧ DB2.IsIterOrder [1, 2] DB2.tblTwoRows.data
    ∧ DB2.ascendingByIdB (DB2.Table.QuerySimple DB2.tblTwoRows [2, 1] []) = false
    ∧ DB2.ascendingByIdB (DB2.Table.QuerySimple DB2.tblTwoRows [1, 2] []) = true
    ∧ DB2.Table.QuerySimple DB2.tblTwoRows [2, 1] []
        ≠ DB2.Table.QuerySimple DB2.tblTwoRows [1, 2] [] := by
  refine ⟨?_, ?_, by decide, by decide, by decide⟩
  · show List.Perm [2, 1] (DB2.tblTwoRows.data.map Prod.fst)
    have h : DB2.tblTwoRows.data.map Prod.fst = [2, 1] := rfl
    rw [h]
  · show List.Perm [1, 2] (DB2.tblTwoRows.data.map Prod.fst)
    have h : DB2.tblTwoRows.data.map Prod.fst = [2, 1] := rfl
    rw [h]
    exact List.Perm.swap 2 1 []

/-- C6: a leaf comparison on a row lacking the referenced column is
false for every operator (spec-modelled Condition), the source
EqualFilter.Match is false on an absent column, and QuerySimple never
returns a row lacking a filtered column. -/
theorem C6_absent_column_false :
    (∀ (c : SpecModel.Condition) (row : DBM.Row),
        DBM.Row.get row c.column = none → SpecModel.Condition.evaluate c row = false)
    ∧ (∀ (f : DB1.EqualFilter) (row : DBM.Row),
        DBM.Row.get row f.column = none → DB1.EqualFilter.Match f row = false)
    ∧ (∀ (t : DB2.Table) (order : List Int) (filters : List (String × DBM.Value)) (r : DBM.Row),
        r ∈ DB2.Table.QuerySimple t order filters →
        ∀ cv ∈ filters, (DBM.Row.get r cv.1).isSome = true) := by
  refine ⟨?_, ?_, ?_⟩
  · intro c row h
    simp [SpecModel.Condition.evaluate, h]
  · intro f row h
    simp [DB1.EqualFilter.Match, h]
  · intro t order filters r hr cv hcv
    simp only [DB2.Table.QuerySimple, List.mem_filter] at hr
    have hm := hr.2
    rw [DB2.rowMatchesFilters, List.all_eq_true] at hm
    have h2 := hm cv hcv
    cases hget : DBM.Row.get r cv.1 with
    | none =>
      rw [hget] at h2
      simp at h2
    | some v => simp [hget]

/-- Witness for C6: a greater-than condition and an equality filter on
the empty row are false, and the row returned by a query filtered on id
carries id. -/
theorem C6_witness :
    SpecModel.Condition.evaluate ⟨"age", SpecModel.COp.gt, DBM.Value.int 0⟩ [] = false
    ∧ DB1.EqualFilter.Match ⟨"name", DBM.Value.str "A"⟩ [] = false
    ∧ (DBM.Row.get [("id", DBM.Value.int 1)] "id").isSome = true := by
  refine ⟨?_, ?_, ?_⟩
  · exact C6_absent_column_false.1 ⟨"age", SpecModel.COp.gt, DBM.Value.int 0⟩ [] (by decide)
  · exact C6_absent_column_false.2.1 ⟨"name", DBM.Value.str "A"⟩ [] (by decide)
  · exact C6_absent_column_false.2.2 ⟨"q", DB2.NewSchema [], [(1, [("id", DBM.Value.int 1)])], 1⟩
      [1] [("id", DBM.Value.int 1)] [("id", DBM.Value.int 1)] (by decide)
      ("id", DBM.Value.int 1) (by decide)

/-- C7: the spec-modelled AND combinator is true iff every child is true
(so the empty AND is true on every row), OR is true iff some child is
true (so the empty OR is false), and the source Select with an empty
filter list returns every stored row. -/
theorem C7_composite_semantics :
    (∀ (cs : List SpecModel.Predicate) (row : DBM.Row),
        SpecModel.Predicate.evaluate (SpecModel.Predicate.comp SpecModel.LogicalOp.and cs) row = true
          ↔ ∀ p ∈ cs, SpecModel.Predicate.evaluate p row = true)
    ∧ (∀ (cs : List SpecModel.Predicate) (row : DBM.Row),
        SpecModel.Predicate.evaluate (SpecModel.Predicate.comp SpecModel.LogicalOp.or cs) row = true
          ↔ ∃ p ∈ cs, SpecModel.Predicate.evaluate p row = true)
    ∧ (∀ row : DBM.Row,
        SpecModel.Predicate.evaluate (SpecModel.Predicate.comp SpecModel.LogicalOp.and []) row = true)
    ∧ (∀ row : DBM.Row,
        SpecModel.Predicate.evaluate (SpecModel.Predicate.comp SpecModel.LogicalOp.or []) row = false)
    ∧ (∀ t : DB1.InMemoryTable, DB1.InMemoryTable.Select t [] = t.rows) := by
  have hAll : ∀ (cs : List SpecModel.Predicate) (row : DBM.Row),
      SpecModel.evalAll cs row = true ↔ ∀ p ∈ cs, SpecModel.Predicate.evaluate p row = true := by
    intro cs row
    induction cs with
    | nil => simp [SpecModel.evalAll]
    | cons p ps ih => simp [SpecModel.evalAll, Bool.and_eq_true, ih]
  have hAny : ∀ (cs : List SpecModel.Predicate) (row : DBM.Row),
      SpecModel.evalAny cs row = true ↔ ∃ p ∈ cs, SpecModel.Predicate.evaluate p row = true := by
    intro cs row
    induction cs with
    | nil => simp [SpecModel.evalAny]
    | cons p ps ih => simp [SpecModel.evalAny, Bool.or_eq_true, ih]
  refine ⟨?_, ?_, ?_, ?_, ?_⟩
  · intro cs row
    simp only [SpecModel.Predicate.evaluate]
    exact hAll cs row
  · intro cs row
    simp only [SpecModel.Predicate.evaluate]
    exact hAny cs row
  · intro row
    simp only [SpecModel.Predicate.evaluate]
    simp [SpecModel.evalAll]
  · intro row
    simp only [SpecModel.Predicate.evaluate]
    simp [SpecModel.evalAny]
  · intro t
    simp [DB1.InMemoryTable.Select, DB1.matchesAll]

/-- Witness for C7: the empty AND accepts the empty row, the empty OR
rejects it, and an empty filter list selects all rows of a one-row
table. -/
theorem C7_witness :
    SpecModel.Predicate.evaluate (SpecModel.Predicate.comp SpecModel.LogicalOp.and []) [] = true
    ∧ SpecModel.Predicate.evaluate (SpecModel.Predicate.comp SpecModel.LogicalOp.or []) [] = false
    ∧ DB1.InMemoryTable.Select ⟨[], [[("a", DBM.Value.int 1)]]⟩ [] = [[("a", DBM.Value.int 1)]] := by
  exact ⟨C7_composite_semantics.2.2.1 [], C7_composite_semantics.2.2.2.1 [],
    C7_composite_semantics.2.2.2.2 ⟨[], [[("a", DBM.Value.int 1)]]⟩⟩

/-- C8 counterexample: on the empty database, GetTable returns the zero
value nil with no error channel at all, and the source filter-based
Update on an empty table (where every identifier is absent) reports
success rather than a NotFoundError. -/
theorem C8_counterexample :
    DB1.Database.GetTable DB1.NewDatabase "users" = none
    ∧ (DB1.InMemoryTable.Update (DB1.NewInMemoryTable [])
        [fun r => DB1.EqualFilter.Match ⟨"id", DBM.Value.int 5⟩ r]
        [("x", DBM.Value.int 1)]).2 = none := by
  exact ⟨rfl, rfl⟩

/-- C8 amended: the spec-modelled id-based update/delete fail with
NotFoundError exactly when the id is absent and leave the table
unchanged in that case; the source filter-based Update always returns
success, and the source GetTable on a missing name silently returns
nil. -/
theorem C8_amended_notfound :
    (∀ (t : SpecModel.ITable) (id : Int) (patch : DBM.Row),
        DBM.mlookup t.data id = none →
          SpecModel.ITable.updateById t id patch
            = (t, Except.error SpecModel.DBError.notFound))
    ∧ (∀ (t : SpecModel.ITable) (id : Int) (patch : DBM.Row),
        (DBM.mlookup t.data id).isSome = true →
          (SpecModel.ITable.updateById t id patch).2 ≠ Except.error SpecModel.DBError.notFound)
    ∧ (∀ (t : SpecModel.ITable) (id : Int),
        DBM.mlookup t.data id = none →
          SpecModel.ITable.deleteById t id = (t, Except.error SpecModel.DBError.notFound))
    ∧ (∀ (t : SpecModel.ITable) (id : Int),
        (DBM.mlookup t.data id).isSome = true →
          (SpecModel.ITable.deleteById t id).2 ≠ Except.error SpecModel.DBError.notFound)
    ∧ (∀ (t : DB1.InMemoryTable) (fs : List DB1.FilterStrategy) (u : DBM.Row),
        (DB1.InMemoryTable.Update t fs u).2 = none)
    ∧ (∀ (db : DB1.Database) (n : String),
        DBM.mlookup db.tables n = none → DB1.Database.GetTable db n = none) := by
  refine ⟨?_, ?_, ?_, ?_, ?_, ?_⟩
  · intro t id patch h
    simp [SpecModel.ITable.updateById, h]
  · intro t id patch h
    cases hl : DBM.mlookup t.data id with
    | none =>
      rw [hl] at h
      simp at h
    | some row =>
      simp only [SpecModel.ITable.updateById, hl]
      cases hv : DB2.Schema.Validate t.schema ((SpecModel.ITable.applyCols t id row patch).2) with
      | some e => simp [hv]
      | none => simp [hv]
  · intro t id h
    simp [SpecModel.ITable.deleteById, h]
  · intro t id h
    cases hl : DBM.mlookup t.data id with
    | none =>
      rw [hl] at h
      simp at h
    | some row => simp [SpecModel.ITable.deleteById, hl]
  · intro t fs u
    rfl
  · intro db n h
    simpa [DB1.Database.GetTable] using h

/-- Witness for C8 amended: update of id 1 on the empty indexed table is
NotFoundError, delete of a present id is not NotFoundError, the source
Update reports success, and GetTable on a fresh database returns nil. -/
theorem C8_witness :
    SpecModel.ITable.updateById (SpecModel.NewITable (DB2.NewSchema [])) 1 []
      = (SpecModel.NewITable (DB2.NewSchema []), Except.error SpecModel.DBError.notFound)
    ∧ (SpecModel.ITable.deleteById ⟨DB2.NewSchema [], [(1, [])], 1, []⟩ 1).2
        ≠ Except.error SpecModel.DBError.notFound
    ∧ (DB1.InMemoryTable.Update (DB1.NewInMemoryTable []) [] []).2 = none
    ∧ DB1.Database.GetTable DB1.NewDatabase "absent" = none := by
  refine ⟨?_, ?_, ?_, ?_⟩
  · exact C8_amended_notfound.1 (SpecModel.NewITable (DB2.NewSchema [])) 1 [] (by decide)
  · exact C8_amended_notfound.2.2.2.1 ⟨DB2.NewSchema [], [(1, [])], 1, []⟩ 1 (by decide)
  · exact C8_amended_notfound.2.2.2.2.1 (DB1.NewInMemoryTable []) [] []
  · exact C8_amended_notfound.2.2.2.2.2 DB1.NewDatabase "absent" rfl
